import Mathlib

/-!
Verification development for the `shift` repository.

This file shallowly embeds the parts of the source code the claims are
about and proves (or refutes) each claim against that embedding:

* `src/app-framework/monitor-layout-engine/src/lib.rs` — monitor layout
  packing, edge-contiguity validation and cursor motion.  `i32`
  coordinates are modelled as `Int` (with explicit saturation where the
  source saturates) and `f64` cursor coordinates as exact rationals `ℚ`
  (every operation the cursor code performs — comparison, clamping to a
  previously computed value, division by the step count — is modelled
  exactly; NaN/infinity inputs are outside the model).
* `src/shift/src/rendering_layer/ownership.rs` + `state.rs` — the
  renderer-side `OwnershipManager` ledger.  Rust `HashMap`s are modelled
  as association lists with replace-on-insert.
* `src/shift/src/server_layer/server.rs` — the `BufferRequest` /
  `BufferRequestAck` handling of the server orchestrator, restricted to
  the state the claims mention.
* `src/shift/src/rendering_layer/fence_scheduler.rs` — the
  `FenceScheduler`, modelled as a labelled transition system over its
  maps, shared callback slots and completion queue.
-/

namespace Shift

/-! ## Monitor layout engine (`monitor-layout-engine/src/lib.rs`) -/

/-- Minimal monitor description used by layout algorithms (`MonitorSpec`). -/
structure MonitorSpec where
  id : String
  width : Int
  height : Int
deriving DecidableEq

/-- Resolved monitor position in global layout space (`MonitorPlacement`). -/
structure MonitorPlacement where
  id : String
  x : Int
  y : Int
  width : Int
  height : Int
deriving DecidableEq

def i32max : Int := 2147483647

def i32min : Int := -2147483648

/-- Rust `i32::saturating_add`. -/
def satAddI32 (a b : Int) : Int := max i32min (min (a + b) i32max)

/-- The comparison `a.id.cmp(&b.id)` used by `layout_horizontal`'s sort. -/
def specLe (a b : MonitorSpec) : Prop := a.id ≤ b.id

instance : DecidableRel specLe := fun a b => inferInstanceAs (Decidable (a.id ≤ b.id))

/-- The packing loop of `layout_horizontal`: place left-to-right at `y = 0`,
advancing `next_x` by `m.width.max(0)` with saturating addition. -/
def packHorizontal : Int → List MonitorSpec → List MonitorPlacement
  | _, [] => []
  | nextX, m :: ms =>
      { id := m.id, x := nextX, y := 0, width := m.width, height := m.height } ::
        packHorizontal (satAddI32 nextX (max m.width 0)) ms

/-- `layout_horizontal`: sort a copy of the input by id (Rust `sort_by` is a
stable sort; `List.insertionSort` is likewise stable), then pack. -/
def layout_horizontal (monitors : List MonitorSpec) : List MonitorPlacement :=
  packHorizontal 0 (List.insertionSort specLe monitors)

/-- `rect_contains`: half-open containment test used by the cursor code.
The source casts `i32` bounds to `f64`; here both live in `ℚ`. -/
def rect_contains (m : MonitorPlacement) (x y : ℚ) : Bool :=
  let left : ℚ := (m.x : ℚ)
  let top : ℚ := (m.y : ℚ)
  let right : ℚ := ((m.x + max m.width 0 : Int) : ℚ)
  let bottom : ℚ := ((m.y + max m.height 0 : Int) : ℚ)
  decide (left ≤ x) && decide (x < right) && decide (top ≤ y) && decide (y < bottom)

/-- Rust `f64::clamp` (for `lo ≤ hi`, which is how the source calls it). -/
def fclamp (x lo hi : ℚ) : ℚ := if x < lo then lo else if hi < x then hi else x

/-- The candidate-selection loop of `clamp_point_to_layout`: for each monitor
compute the clamped point and its squared distance, keeping the first-seen
minimum (`Some((_,_,bd2)) if d2 >= bd2 => keep`, else replace). -/
def clampCandidates (x y : ℚ) : List MonitorPlacement → Option (ℚ × ℚ × ℚ) → Option (ℚ × ℚ × ℚ)
  | [], best => best
  | m :: ms, best =>
      let left : ℚ := (m.x : ℚ)
      let top : ℚ := (m.y : ℚ)
      let right : ℚ := ((m.x + max m.width 0 : Int) : ℚ)
      let bottom : ℚ := ((m.y + max m.height 0 : Int) : ℚ)
      let cx := fclamp x left (max right left)
      let cy := fclamp y top (max bottom top)
      let d2 := (cx - x) * (cx - x) + (cy - y) * (cy - y)
      let best1 :=
        match best with
        | some (px, py, bd2) => if bd2 ≤ d2 then some (px, py, bd2) else some (cx, cy, d2)
        | none => some (cx, cy, d2)
      clampCandidates x y ms best1

/-- `clamp_point_to_layout`: identity on empty layouts and on points already
inside some monitor; otherwise the nearest clamped candidate.  The source's
`best.expect(..)` cannot fail on a non-empty list (proved below); the `none`
branch here is unreachable under the conditions of every theorem using it. -/
def clamp_point_to_layout (monitors : List MonitorPlacement) (x y : ℚ) : ℚ × ℚ :=
  if monitors = [] then (x, y)
  else if monitors.any (fun m => rect_contains m x y) then (x, y)
  else
    match clampCandidates x y monitors none with
    | some (cx, cy, _) => (cx, cy)
    | none => (x, y)

/-- `f64::EPSILON` = 2⁻⁵². -/
def eps : ℚ := 1 / 4503599627370496

/-- The step count of `move_cursor_no_tunnel`:
`ceil(max(|dx|,|dy|)).max(1.0) as i32` (a saturating cast) clamped to
`[1, 8192]`. -/
def stepsFor (dx dy : ℚ) : Int :=
  let c : Int := ⌈max |dx| |dy|⌉
  let c1 : Int := max c 1
  let c2 : Int := max i32min (min c1 i32max)
  max 1 (min c2 8192)

/-- The unit-step integration loop of `move_cursor_no_tunnel`. -/
def moveSteps (monitors : List MonitorPlacement) (stepX stepY : ℚ) :
    Nat → ℚ × ℚ → ℚ × ℚ
  | 0, p => p
  | n + 1, (x, y) =>
      let nx := x + stepX
      let ny := y + stepY
      if monitors.any (fun m => rect_contains m nx ny) then
        moveSteps monitors stepX stepY n (nx, ny)
      else
        let c := clamp_point_to_layout monitors nx ny
        if decide (|c.1 - x| < eps) && decide (|c.2 - y| < eps) then (x, y)
        else moveSteps monitors stepX stepY n c

/-- `move_cursor_no_tunnel`. -/
def move_cursor_no_tunnel (monitors : List MonitorPlacement) (sx sy dx dy : ℚ) : ℚ × ℚ :=
  if monitors = [] then (sx + dx, sy + dy)
  else
    let p := clamp_point_to_layout monitors sx sy
    let steps := stepsFor dx dy
    let stepX := dx / ((steps : ℚ))
    let stepY := dy / ((steps : ℚ))
    moveSteps monitors stepX stepY steps.toNat p

/-! ### Edge-contiguity validator -/

/-- `monitors_touch`: two placements share a vertical or horizontal edge,
with the respective interval-overlap test of the source. -/
def monitors_touch (a b : MonitorPlacement) : Bool :=
  let ax1 := a.x
  let ay1 := a.y
  let ax2 := a.x + max a.width 0
  let ay2 := a.y + max a.height 0
  let bx1 := b.x
  let bY1 := b.y
  let bx2 := b.x + max b.width 0
  let bY2 := b.y + max b.height 0
  let xOverlap := decide (ax1 < bx2) && decide (bx1 < ax2)
  let yOverlap := decide (ay1 < bY2) && decide (bY1 < ay2)
  let verticalTouch := (decide (ax2 = bx1) || decide (bx2 = ax1)) && yOverlap
  let horizontalTouch := (decide (ay2 = bY1) || decide (bY2 = ay1)) && xOverlap
  verticalTouch || horizontalTouch

/-- `monitors_overlap_area`: positive-area intersection test of the source. -/
def monitors_overlap_area (a b : MonitorPlacement) : Bool :=
  let ax1 := a.x
  let ay1 := a.y
  let ax2 := a.x + max a.width 0
  let ay2 := a.y + max a.height 0
  let bx1 := b.x
  let bY1 := b.y
  let bx2 := b.x + max b.width 0
  let bY2 := b.y + max b.height 0
  (decide (ax1 < bx2) && decide (bx1 < ax2)) && (decide (ay1 < bY2) && decide (bY1 < ay2))

def dummyPlacement : MonitorPlacement := ⟨"", 0, 0, 0, 0⟩

/-- `monitors[i]` (all accesses in the source are in bounds). -/
def mp (l : List MonitorPlacement) (i : Nat) : MonitorPlacement := l.getD i dummyPlacement

/-- The overlap double loop (`i`, then `j in (i+1)..n`). -/
def hasOverlapPair (l : List MonitorPlacement) : Bool :=
  (List.range l.length).any fun i => (List.range l.length).any fun j =>
    decide (i < j) && monitors_overlap_area (mp l i) (mp l j)

/-- The adjacency list built by the validator: since `monitors_touch` is
symmetric, the source's per-pair pushes put exactly the indices
`j ≠ i` with `monitors_touch(monitors[i], monitors[j])`, in ascending
order, into `adj[i]`. -/
def adjList (l : List MonitorPlacement) (i : Nat) : List Nat :=
  (List.range l.length).filter fun j => decide (j ≠ i) && monitors_touch (mp l i) (mp l j)

/-- The inner loop of the DFS: `for &j in &adj[i] { if !seen[j] { seen[j] = true;
stack.push(j) } }`.  The `vec![false; n]` of the source is modelled as a
function `Nat → Bool`. -/
def pushUnseen (seen : Nat → Bool) (stack : List Nat) : List Nat → (Nat → Bool) × List Nat
  | [] => (seen, stack)
  | j :: js =>
      if seen j then pushUnseen seen stack js
      else pushUnseen (fun k => if k = j then true else seen k) (j :: stack) js

/-- The DFS loop (`while let Some(i) = stack.pop()`), fuelled; fuel
`l.length` is enough because each handle pushed marks a fresh index seen. -/
def dfsGo (adj : Nat → List Nat) : Nat → List Nat → (Nat → Bool) → (Nat → Bool)
  | 0, _, seen => seen
  | _ + 1, [], seen => seen
  | fuel + 1, i :: stack, seen =>
      let r := pushUnseen seen stack (adj i)
      dfsGo adj fuel r.2 r.1

/-- The `seen` vector after the validator's DFS from vertex 0. -/
def dfsSeen (l : List MonitorPlacement) : Nat → Bool :=
  dfsGo (adjList l) l.length [0] (fun k => decide (k = 0))

/-- `is_valid_edge_contiguous_layout`. -/
def is_valid_edge_contiguous_layout (l : List MonitorPlacement) : Bool :=
  if l.length ≤ 1 then true
  else if hasOverlapPair l then false
  else if (List.range l.length).any (fun i => (adjList l i).isEmpty) then false
  else (List.range l.length).all fun i => dfsSeen l i

/-! ### Spec-side layout predicate (from the words of the spec, for the
refinement claim C7): rectangle extents `x..x+width`, `y..y+height`,
positive-length interval overlap, touch graph connectivity. -/

def sLeft (m : MonitorPlacement) : Int := m.x

def sRight (m : MonitorPlacement) : Int := m.x + m.width

def sTop (m : MonitorPlacement) : Int := m.y

def sBottom (m : MonitorPlacement) : Int := m.y + m.height

/-- The intervals `[s1, e1]` and `[s2, e2]` overlap with positive length. -/
def PosOverlap (s1 e1 s2 e2 : Int) : Prop := max s1 s2 < min e1 e2

instance (s1 e1 s2 e2 : Int) : Decidable (PosOverlap s1 e1 s2 e2) :=
  inferInstanceAs (Decidable (max s1 s2 < min e1 e2))

/-- Spec: two rectangles touch iff one pair of axis extents is equal on
opposite sides and the other axis intervals overlap with positive length. -/
def TouchesSpec (a b : MonitorPlacement) : Prop :=
  ((sRight a = sLeft b ∨ sRight b = sLeft a) ∧ PosOverlap (sTop a) (sBottom a) (sTop b) (sBottom b))
  ∨ ((sBottom a = sTop b ∨ sBottom b = sTop a) ∧ PosOverlap (sLeft a) (sRight a) (sLeft b) (sRight b))

instance (a b : MonitorPlacement) : Decidable (TouchesSpec a b) :=
  inferInstanceAs (Decidable (_ ∨ _))

/-- Spec: the two rectangles overlap with positive area. -/
def OverlapsPosArea (a b : MonitorPlacement) : Prop :=
  PosOverlap (sLeft a) (sRight a) (sLeft b) (sRight b)
  ∧ PosOverlap (sTop a) (sBottom a) (sTop b) (sBottom b)

instance (a b : MonitorPlacement) : Decidable (OverlapsPosArea a b) :=
  inferInstanceAs (Decidable (_ ∧ _))

/-- The touch graph on indices of the placement list. -/
def touchRel (l : List MonitorPlacement) (i j : Nat) : Prop :=
  i < l.length ∧ j < l.length ∧ i ≠ j ∧ TouchesSpec (mp l i) (mp l j)

/-- The spec's validity predicate: `|P| ≤ 1`, or no positive-area overlap,
every rectangle edge-touches at least one other, and the touch graph is
connected. -/
def specValidLayout (l : List MonitorPlacement) : Prop :=
  l.length ≤ 1 ∨
  ((∀ i j, i < l.length → j < l.length → i ≠ j → ¬ OverlapsPosArea (mp l i) (mp l j)) ∧
   (∀ i, i < l.length → ∃ j, j < l.length ∧ j ≠ i ∧ TouchesSpec (mp l i) (mp l j)) ∧
   (∀ i j, i < l.length → j < l.length → Relation.ReflTransGen (touchRel l) i j))

/-! ## Renderer ownership ledger (`rendering_layer/state.rs`, `ownership.rs`) -/

abbrev MonitorId := Nat

abbrev SessionId := Nat

inductive BufferSlot
  | Zero
  | One
deriving DecidableEq

structure SlotKey where
  monitor_id : MonitorId
  session_id : SessionId
  buffer : BufferSlot
deriving DecidableEq

/-- `MonitorSurfaceState` with its `Default` (both fields `None`). -/
structure MonitorSurfaceState where
  current_buffer : Option BufferSlot := none
  pending_buffer : Option BufferSlot := none
deriving DecidableEq

inductive SlotOwner
  | ClientOwned
  | ShiftOwned
deriving DecidableEq

structure DeferredRelease where
  monitor_id : MonitorId
  session_id : SessionId
  buffer : BufferSlot
deriving DecidableEq

structure SwapApplyResult where
  canceled_pending : Option BufferSlot
  previous_to_release : Option BufferSlot
deriving DecidableEq

/-! Rust `HashMap`s are modelled as association lists with
replace-first-occurrence insertion (reachable ledgers never hold a
duplicate key, proved below for `monitor_state`). -/

def alookup {κ β : Type} [DecidableEq κ] : List (κ × β) → κ → Option β
  | [], _ => none
  | e :: es, k => if e.1 = k then some e.2 else alookup es k

/-- `HashMap::insert` (replace the value at the key, else append). -/
def ainsert {κ β : Type} [DecidableEq κ] : List (κ × β) → κ → β → List (κ × β)
  | [], k, v => [(k, v)]
  | e :: es, k, v => if e.1 = k then (k, v) :: es else e :: ainsert es k v

/-- `HashMap::entry(k).or_default()`-style insertion (keep an existing
entry, else append the default). -/
def aentry {κ β : Type} [DecidableEq κ] : List (κ × β) → κ → β → List (κ × β)
  | [], k, d => [(k, d)]
  | e :: es, k, d => if e.1 = k then e :: es else e :: aentry es k d

/-- `Option::filter(|p| *p != slot)`. -/
def optFilterNe (b : BufferSlot) : Option BufferSlot → Option BufferSlot
  | some v => if v = b then none else some v
  | none => none

structure OwnershipManager where
  current_session : Option SessionId
  monitor_state : List ((MonitorId × SessionId) × MonitorSurfaceState)
  slot_ownership : List (SlotKey × SlotOwner)
  deferred_releases : List DeferredRelease
deriving DecidableEq

/-- `OwnershipManager::new()`. -/
def OwnershipManager.empty : OwnershipManager := ⟨none, [], [], []⟩

def set_current_session (om : OwnershipManager) (s : Option SessionId) : OwnershipManager :=
  { om with current_session := s }

def ensure_current_session_monitors (om : OwnershipManager) (monitor_ids : List MonitorId) :
    OwnershipManager :=
  match om.current_session with
  | none => om
  | some sid =>
      { om with
        monitor_state := monitor_ids.foldl (fun ms mid => aentry ms (mid, sid) {}) om.monitor_state }

def mark_slot_client_owned (om : OwnershipManager) (key : SlotKey) : OwnershipManager :=
  { om with slot_ownership := ainsert om.slot_ownership key SlotOwner.ClientOwned }

def mark_slot_shift_owned (om : OwnershipManager) (key : SlotKey) : OwnershipManager :=
  { om with slot_ownership := ainsert om.slot_ownership key SlotOwner.ShiftOwned }

/-- `apply_swap_request`: read `canceled_pending` from the old surface state,
mark the slot Shift-owned, create the surface entry (`state_entry` /
`or_default`), set `pending = Some(slot)`, and when no acquire fence is
supplied promote immediately (the final entry value below is the net effect
of the source's field assignments). -/
def apply_swap_request (om : OwnershipManager) (monitor_id : MonitorId)
    (session_id : SessionId) (slot : BufferSlot) (has_acquire_fence : Bool) :
    OwnershipManager × SwapApplyResult :=
  let canceled_pending :=
    optFilterNe slot
      ((alookup om.monitor_state (monitor_id, session_id)).bind MonitorSurfaceState.pending_buffer)
  let om1 := mark_slot_shift_owned om ⟨monitor_id, session_id, slot⟩
  let previous := ((alookup om1.monitor_state (monitor_id, session_id)).getD {}).current_buffer
  let newState : MonitorSurfaceState :=
    if has_acquire_fence then { current_buffer := previous, pending_buffer := some slot }
    else { current_buffer := some slot, pending_buffer := none }
  let previous_to_release := if has_acquire_fence then none else optFilterNe slot previous
  ({ om1 with monitor_state := ainsert om1.monitor_state (monitor_id, session_id) newState },
   ⟨canceled_pending, previous_to_release⟩)

/-- `apply_acquire_fence_signaled`: ignore a stale signal; otherwise promote
the pending buffer and report the replaced previous current (if any and
different). -/
def apply_acquire_fence_signaled (om : OwnershipManager) (key : SlotKey) :
    OwnershipManager × Option BufferSlot :=
  match alookup om.monitor_state (key.monitor_id, key.session_id) with
  | none => (om, none)
  | some state =>
      if state.pending_buffer ≠ some key.buffer then (om, none)
      else
        ({ om with
            monitor_state :=
              ainsert om.monitor_state (key.monitor_id, key.session_id)
                { current_buffer := some key.buffer, pending_buffer := none } },
         optFilterNe key.buffer state.current_buffer)

def queue_buffer_release (om : OwnershipManager) (m : MonitorId) (s : SessionId)
    (b : BufferSlot) : OwnershipManager :=
  if om.deferred_releases.any (fun item =>
      decide (item.monitor_id = m) && decide (item.session_id = s) && decide (item.buffer = b))
  then om
  else { om with deferred_releases := om.deferred_releases ++ [⟨m, s, b⟩] }

def take_deferred_releases (om : OwnershipManager) : OwnershipManager × List DeferredRelease :=
  ({ om with deferred_releases := [] }, om.deferred_releases)

def cleanup_monitor (om : OwnershipManager) (m : MonitorId) : OwnershipManager :=
  { om with
    slot_ownership := om.slot_ownership.filter fun e => decide (e.1.monitor_id ≠ m),
    deferred_releases := om.deferred_releases.filter fun item => decide (item.monitor_id ≠ m),
    monitor_state := om.monitor_state.filter fun e => decide (e.1.1 ≠ m) }

def cleanup_session (om : OwnershipManager) (s : SessionId) : OwnershipManager :=
  { om with
    slot_ownership := om.slot_ownership.filter fun e => decide (e.1.session_id ≠ s),
    monitor_state := om.monitor_state.filter fun e => decide (e.1.2 ≠ s),
    deferred_releases := om.deferred_releases.filter fun item => decide (item.session_id ≠ s) }

/-- The public mutating operations of `OwnershipManager`, for quantifying
over operation sequences. -/
inductive OwnershipOp
  | setCurrentSession (s : Option SessionId)
  | ensureCurrentSessionMonitors (ms : List MonitorId)
  | markSlotClientOwned (key : SlotKey)
  | markSlotShiftOwned (key : SlotKey)
  | applySwapRequest (m : MonitorId) (s : SessionId) (b : BufferSlot) (fence : Bool)
  | applyAcquireFenceSignaled (key : SlotKey)
  | queueBufferRelease (m : MonitorId) (s : SessionId) (b : BufferSlot)
  | takeDeferredReleases
  | cleanupMonitor (m : MonitorId)
  | cleanupSession (s : SessionId)

def stepOp (om : OwnershipManager) : OwnershipOp → OwnershipManager
  | .setCurrentSession s => set_current_session om s
  | .ensureCurrentSessionMonitors ms => ensure_current_session_monitors om ms
  | .markSlotClientOwned key => mark_slot_client_owned om key
  | .markSlotShiftOwned key => mark_slot_shift_owned om key
  | .applySwapRequest m s b fence => (apply_swap_request om m s b fence).1
  | .applyAcquireFenceSignaled key => (apply_acquire_fence_signaled om key).1
  | .queueBufferRelease m s b => queue_buffer_release om m s b
  | .takeDeferredReleases => (take_deferred_releases om).1
  | .cleanupMonitor m => cleanup_monitor om m
  | .cleanupSession s => cleanup_session om s

/-- Run a sequence of operations from the empty ledger. -/
def runOps (ops : List OwnershipOp) : OwnershipManager :=
  ops.foldl stepOp OwnershipManager.empty

/-! ## Server orchestration (`server_layer/server.rs`): `BufferRequest`
and `BufferRequestAck` handling.  The model carries exactly the server
state these handlers consult: the awake set (after
`prune_expired_awake_sessions`, which touches neither `buffer_ownership`
nor `pending_buffer_requests`), the ownership table and the in-flight
request list.  Channel sends are modelled by the `sendOk` parameter and
the outcome value; the requesting client is assumed authenticated (the
`forbidden` path precedes the claims' conditions in the source). -/

inductive BufferIndex
  | Zero
  | One
deriving DecidableEq

inductive BufferOwner
  | Client
  | Shift
deriving DecidableEq

structure PendingBufferRequest where
  client_id : Nat
  session_id : SessionId
  monitor_id : MonitorId
  buffer : BufferIndex
deriving DecidableEq

structure ServerBufState where
  awake_sessions : List SessionId
  buffer_ownership : List ((SessionId × MonitorId × BufferIndex) × BufferOwner)
  pending_buffer_requests : List PendingBufferRequest
deriving DecidableEq

inductive BufReqOutcome
  | sentError (code : String)
  | forwardedSwap
deriving DecidableEq

def isAwake (st : ServerBufState) (s : SessionId) : Prop := s ∈ st.awake_sessions

instance (st : ServerBufState) (s : SessionId) : Decidable (isAwake st s) :=
  inferInstanceAs (Decidable (s ∈ st.awake_sessions))

/-- `buffer_ownership.get(&key).copied().unwrap_or(BufferOwner::Client)`. -/
def ownerOf (st : ServerBufState) (s : SessionId) (m : MonitorId) (b : BufferIndex) : BufferOwner :=
  (alookup st.buffer_ownership (s, m, b)).getD .Client

def hasInflight (st : ServerBufState) (s : SessionId) (m : MonitorId) : Prop :=
  ∃ p ∈ st.pending_buffer_requests, p.session_id = s ∧ p.monitor_id = m

instance (st : ServerBufState) (s : SessionId) (m : MonitorId) :
    Decidable (hasInflight st s m) :=
  inferInstanceAs (Decidable (∃ p ∈ st.pending_buffer_requests, p.session_id = s ∧ p.monitor_id = m))

/-- The `C2SMsg::BufferRequest` arm of `handle_client_message`: validate
(awake, client-owned, no in-flight request), then forward
`RenderCmd::SwapBuffers` and record a `PendingBufferRequest`; `sendOk`
models whether the renderer channel send succeeds. -/
def handle_buffer_request (st : ServerBufState) (client_id : Nat) (session_id : SessionId)
    (monitor_id : MonitorId) (buffer : BufferIndex) (sendOk : Bool) :
    BufReqOutcome × ServerBufState :=
  if ¬ isAwake st session_id then (.sentError "session_sleeping", st)
  else if ownerOf st session_id monitor_id buffer ≠ .Client then
    (.sentError "ownership_violation", st)
  else if st.pending_buffer_requests.any (fun pending =>
      decide (pending.session_id = session_id) && decide (pending.monitor_id = monitor_id)) then
    (.sentError "buffer_request_inflight", st)
  else if sendOk then
    (.forwardedSwap,
     { st with
        pending_buffer_requests :=
          st.pending_buffer_requests ++ [⟨client_id, session_id, monitor_id, buffer⟩] })
  else (.sentError "render_unavailable", st)

/-- The `RenderEvt::BufferRequestAck` arm of `handle_render_event`: find the
matching pending request (else warn and return), remove it, and set the
slot's owner to `Shift`.  The returned `Bool` is whether an ack was relayed. -/
def handle_buffer_request_ack (st : ServerBufState) (session_id : SessionId)
    (monitor_id : MonitorId) (buffer : BufferIndex) : Bool × ServerBufState :=
  match st.pending_buffer_requests.findIdx? (fun pending =>
      decide (pending.session_id = session_id) && decide (pending.monitor_id = monitor_id)
        && decide (pending.buffer = buffer)) with
  | none => (false, st)
  | some pos =>
      (true,
       { st with
          pending_buffer_requests := st.pending_buffer_requests.eraseIdx pos,
          buffer_ownership := ainsert st.buffer_ownership (session_id, monitor_id, buffer) .Shift })

/-! ## Fence scheduler (`rendering_layer/fence_scheduler.rs`), as a
labelled transition system.  Per handle: the `tasks` map entry, whether
the spawned wait task is still running (it stops on completion or
`abort`), the `callbacks` map entry, the shared `Arc<Mutex<Option<cb>>>`
slot contents, the completion channel, and a log of invoked callbacks. -/

inductive SchedOp
  | schedule
  | taskComplete (h : Nat)
  | reschedule (h : Nat)
  | cancel (h : Nat)
  | recvAndRun

structure SchedState where
  next_id : Nat
  tasks : List Nat
  running : List Nat
  callbacks : List Nat
  slots : List (Nat × Bool)
  queue : List Nat
  fired : List Nat
deriving DecidableEq

def SchedState.init : SchedState := ⟨1, [], [], [], [], [], []⟩

def schedStep (st : SchedState) : SchedOp → SchedState
  | .schedule =>
      let h := st.next_id
      { st with
        next_id := min (st.next_id + 1) (2 ^ 64 - 1),
        tasks := h :: st.tasks,
        running := h :: st.running,
        callbacks := h :: st.callbacks,
        slots := (h, true) :: st.slots }
  | .taskComplete h =>
      if h ∈ st.running then
        { st with running := st.running.erase h, queue := st.queue ++ [h] }
      else st
  | .reschedule h =>
      if h ∈ st.callbacks then
        { st with tasks := h :: st.tasks.erase h, running := h :: st.running.erase h }
      else st
  | .cancel h =>
      { st with
        tasks := st.tasks.erase h,
        running := st.running.erase h,
        callbacks := st.callbacks.erase h }
  | .recvAndRun =>
      match st.queue with
      | [] => st
      | h :: rest =>
          { st with
            queue := rest,
            tasks := st.tasks.erase h,
            callbacks := st.callbacks.erase h,
            slots := ainsert st.slots h false,
            fired := if (alookup st.slots h).getD false then st.fired ++ [h] else st.fired }

def runSched (ops : List SchedOp) : SchedState :=
  ops.foldl schedStep SchedState.init

/-! ## Association-list lemmas -/

theorem alookup_ainsert {κ β : Type} [DecidableEq κ] (l : List (κ × β)) (k : κ) (v : β) :
    alookup (ainsert l k v) k = some v := by
  induction l with
  | nil => simp [ainsert, alookup]
  | cons e es ih =>
      by_cases h : e.1 = k <;> simp [ainsert, alookup, h, ih]

theorem ainsert_ainsert {κ β : Type} [DecidableEq κ] (l : List (κ × β)) (k : κ) (v w : β) :
    ainsert (ainsert l k v) k w = ainsert l k w := by
  induction l with
  | nil => simp [ainsert]
  | cons e es ih =>
      by_cases h : e.1 = k <;> simp [ainsert, h, ih]

theorem mem_keys_ainsert {κ β : Type} [DecidableEq κ] (l : List (κ × β)) (k : κ) (v : β)
    (a : κ) : a ∈ (ainsert l k v).map Prod.fst ↔ a ∈ l.map Prod.fst ∨ a = k := by
  induction l with
  | nil => simp [ainsert]
  | cons e es ih =>
      by_cases h : e.1 = k
      · rw [ainsert, if_pos h]
        simp only [List.map_cons, List.mem_cons, h]
        tauto
      · rw [ainsert, if_neg h]
        simp only [List.map_cons, List.mem_cons, ih]
        tauto

theorem nodup_keys_ainsert {κ β : Type} [DecidableEq κ] (l : List (κ × β)) (k : κ) (v : β)
    (h : (l.map Prod.fst).Nodup) : ((ainsert l k v).map Prod.fst).Nodup := by
  induction l with
  | nil => simp [ainsert]
  | cons e es ih =>
      simp only [List.map_cons, List.nodup_cons] at h
      by_cases hek : e.1 = k
      · rw [ainsert, if_pos hek]
        simp only [List.map_cons, List.nodup_cons]
        exact ⟨hek ▸ h.1, h.2⟩
      · rw [ainsert, if_neg hek]
        simp only [List.map_cons, List.nodup_cons]
        refine ⟨?_, ih h.2⟩
        rw [mem_keys_ainsert]
        rintro (ha | rfl)
        · exact h.1 ha
        · exact hek rfl

theorem mem_keys_aentry {κ β : Type} [DecidableEq κ] (l : List (κ × β)) (k : κ) (d : β)
    (a : κ) : a ∈ (aentry l k d).map Prod.fst ↔ a ∈ l.map Prod.fst ∨ a = k := by
  induction l with
  | nil => simp [aentry]
  | cons e es ih =>
      by_cases h : e.1 = k
      · rw [aentry, if_pos h]
        simp only [List.map_cons, List.mem_cons, h]
        tauto
      · rw [aentry, if_neg h]
        simp only [List.map_cons, List.mem_cons, ih]
        tauto

theorem nodup_keys_aentry {κ β : Type} [DecidableEq κ] (l : List (κ × β)) (k : κ) (d : β)
    (h : (l.map Prod.fst).Nodup) : ((aentry l k d).map Prod.fst).Nodup := by
  induction l with
  | nil => simp [aentry]
  | cons e es ih =>
      simp only [List.map_cons, List.nodup_cons] at h
      by_cases hek : e.1 = k
      · rw [aentry, if_pos hek]
        simp only [List.map_cons, List.nodup_cons]
        exact h
      · rw [aentry, if_neg hek]
        simp only [List.map_cons, List.nodup_cons]
        refine ⟨?_, ih h.2⟩
        rw [mem_keys_aentry]
        rintro (ha | rfl)
        · exact h.1 ha
        · exact hek rfl

theorem nodup_keys_filter {κ β : Type} (l : List (κ × β)) (p : κ × β → Bool)
    (h : (l.map Prod.fst).Nodup) : ((l.filter p).map Prod.fst).Nodup := by
  have hs : ((l.filter p).map Prod.fst).Sublist (l.map Prod.fst) :=
    (l.filter_sublist).map Prod.fst
  exact hs.nodup h

/-! ## C10: empty-layout passthrough -/

/-- C10: with an empty placement list, `clamp_point_to_layout` returns its
input point unchanged, and `move_cursor_no_tunnel` returns exactly
`(start_x + delta_x, start_y + delta_y)` — no clamping or step
integration is applied. -/
theorem c10_empty_layout_passthrough :
    (∀ x y : ℚ, clamp_point_to_layout [] x y = (x, y)) ∧
    (∀ sx sy dx dy : ℚ, move_cursor_no_tunnel [] sx sy dx dy = (sx + dx, sy + dy)) := by
  constructor <;> intros <;> simp [clamp_point_to_layout, move_cursor_no_tunnel]

/-! ## C9: permutation invariance of `layout_horizontal` -/

def specLt (a b : MonitorSpec) : Prop := a.id < b.id

instance : IsTotal MonitorSpec specLe := ⟨fun a b => le_total a.id b.id⟩

instance : IsTrans MonitorSpec specLe := ⟨fun _ _ _ hab hbc => le_trans hab hbc⟩

instance : IsAntisymm MonitorSpec specLt :=
  ⟨fun _ _ h1 h2 => absurd (lt_trans h1 h2) (lt_irrefl _)⟩

/-- Two `MonitorSpec`s sharing the id `"a"` with different dimensions. -/
def specDupA : MonitorSpec := ⟨"a", 1, 1⟩

def specDupB : MonitorSpec := ⟨"a", 2, 2⟩

/-- C9 counterexample: the claim quantifies over every list of
`MonitorSpec`s, but `layout_horizontal` sorts with a stable sort keyed
only on the id, so permuting two specs that share an id but differ in
dimensions changes the output placements. -/
theorem c9_counterexample :
    [specDupA, specDupB].Perm [specDupB, specDupA] ∧
    layout_horizontal [specDupA, specDupB] ≠ layout_horizontal [specDupB, specDupA] := by
  refine ⟨List.Perm.swap _ _ _, ?_⟩
  have hab : specLe specDupA specDupB := le_refl "a"
  have hba : specLe specDupB specDupA := le_refl "a"
  have e1 : List.insertionSort specLe [specDupA, specDupB] = [specDupA, specDupB] := by
    simp only [List.insertionSort, List.orderedInsert]
    rw [if_pos hab]
  have e2 : List.insertionSort specLe [specDupB, specDupA] = [specDupB, specDupA] := by
    simp only [List.insertionSort, List.orderedInsert]
    rw [if_pos hba]
  intro h
  rw [layout_horizontal, layout_horizontal, e1, e2] at h
  simp [packHorizontal, specDupA, specDupB] at h

/-- C9 (amended): for every list of `MonitorSpec`s with pairwise-distinct
ids, every permutation of that list yields identical placements from
`layout_horizontal`. -/
theorem c9_layout_horizontal_perm_invariant (l1 l2 : List MonitorSpec) (hperm : l1.Perm l2)
    (hids : (l1.map MonitorSpec.id).Nodup) : layout_horizontal l1 = layout_horizontal l2 := by
  unfold layout_horizontal
  have hsort : List.insertionSort specLe l1 = List.insertionSort specLe l2 := by
    have hp : (List.insertionSort specLe l1).Perm (List.insertionSort specLe l2) :=
      (List.perm_insertionSort specLe l1).trans
        (hperm.trans (List.perm_insertionSort specLe l2).symm)
    have strict : ∀ l : List MonitorSpec, (l.map MonitorSpec.id).Nodup →
        (List.insertionSort specLe l).Pairwise specLt := by
      intro l hl
      have hs : (List.insertionSort specLe l).Pairwise specLe :=
        List.sorted_insertionSort specLe l
      have hnd : ((List.insertionSort specLe l).map MonitorSpec.id).Nodup :=
        (((List.perm_insertionSort specLe l).map MonitorSpec.id).nodup_iff).mpr hl
      have hne : (List.insertionSort specLe l).Pairwise fun a b => a.id ≠ b.id :=
        List.pairwise_map.mp hnd
      exact (hs.and hne).imp fun hab => lt_of_le_of_ne hab.1 hab.2
    have h1 := strict l1 hids
    have h2 := strict l2 ((hperm.map MonitorSpec.id).nodup_iff.mp hids)
    exact List.eq_of_perm_of_sorted hp h1 h2
  rw [hsort]

/-- C9 witness: the amended theorem applied to a concrete two-monitor
permutation with distinct ids. -/
theorem c9_witness :
    ([⟨"a", 1, 1⟩, ⟨"b", 2, 2⟩] : List MonitorSpec).Perm [⟨"b", 2, 2⟩, ⟨"a", 1, 1⟩] ∧
    (([⟨"a", 1, 1⟩, ⟨"b", 2, 2⟩] : List MonitorSpec).map MonitorSpec.id).Nodup ∧
    layout_horizontal [⟨"a", 1, 1⟩, ⟨"b", 2, 2⟩] = layout_horizontal [⟨"b", 2, 2⟩, ⟨"a", 1, 1⟩] :=
  ⟨List.Perm.swap _ _ _, by decide,
    c9_layout_horizontal_perm_invariant _ _ (List.Perm.swap _ _ _) (by decide)⟩

/-! ## C4: the fence-scheduler cancellation bug -/

/-- C4: the claim (and the spec's contract, "cancel takes the slot,
preventing double-invocation") says a callback never fires after
`cancel(handle)` returned.  In the source, `cancel` only removes the
`tasks`/`callbacks` map entries and aborts the wait task; it does not take
the callback out of the shared `Arc<Mutex<Option<_>>>` slot.  A completion
already queued on the channel still holds its own reference to that slot,
so a later `recv_and_run` takes the callback and invokes it: after
`schedule` (handle 1), wait completion, and `cancel 1` (which returns
`true` — handle 1 is in `callbacks` at that point), `recv_and_run` fires
callback 1. -/
theorem c4_callback_fires_after_cancel :
    1 ∈ (runSched [.schedule, .taskComplete 1]).callbacks ∧
    (runSched [.schedule, .taskComplete 1, .cancel 1]).fired = [] ∧
    (runSched [.schedule, .taskComplete 1, .cancel 1, .recvAndRun]).fired = [1] := by
  decide

/-! ## C1: ledger invariants over operation sequences -/

/-- C1 counterexample: from the empty ledger, `apply_swap_request(0,0,Zero,
false)` followed by `apply_swap_request(0,0,Zero,true)` (re-submitting the
current buffer with an acquire fence) leaves the surface with
`pending_buffer = current_buffer = Some(Zero)`, violating the claimed
`pending ≠ current`. -/
theorem c1_counterexample :
    alookup (runOps [.applySwapRequest 0 0 .Zero false,
        .applySwapRequest 0 0 .Zero true]).monitor_state (0, 0) =
      some { current_buffer := some BufferSlot.Zero, pending_buffer := some BufferSlot.Zero } := by
  decide

/-- The "at most one pending per surface" invariant is carried by key
uniqueness of the `monitor_state` map. -/
def KeysNodup (om : OwnershipManager) : Prop := (om.monitor_state.map Prod.fst).Nodup

theorem nodup_keys_foldl_aentry (ms : List MonitorId) (sid : SessionId) :
    ∀ (l : List ((MonitorId × SessionId) × MonitorSurfaceState)),
      (l.map Prod.fst).Nodup →
      ((ms.foldl (fun acc mid => aentry acc (mid, sid) {}) l).map Prod.fst).Nodup := by
  induction ms with
  | nil => intro l hl; simpa using hl
  | cons mid ms ih => intro l hl; exact ih _ (nodup_keys_aentry _ _ _ hl)

theorem stepOp_keys_nodup (om : OwnershipManager) (op : OwnershipOp)
    (h : KeysNodup om) : KeysNodup (stepOp om op) := by
  cases op with
  | setCurrentSession s => exact h
  | ensureCurrentSessionMonitors ms =>
      show KeysNodup (ensure_current_session_monitors om ms)
      unfold ensure_current_session_monitors
      cases om.current_session with
      | none => exact h
      | some sid => exact nodup_keys_foldl_aentry ms sid _ h
  | markSlotClientOwned key => exact h
  | markSlotShiftOwned key => exact h
  | applySwapRequest m s b fence =>
      show ((ainsert om.monitor_state (m, s) _).map Prod.fst).Nodup
      exact nodup_keys_ainsert _ _ _ h
  | applyAcquireFenceSignaled key =>
      show KeysNodup (apply_acquire_fence_signaled om key).1
      unfold apply_acquire_fence_signaled
      cases halk : alookup om.monitor_state (key.monitor_id, key.session_id) with
      | none => exact h
      | some state =>
          by_cases hp : state.pending_buffer ≠ some key.buffer
          · simp only [if_pos hp]
            exact h
          · simp only [if_neg hp]
            exact nodup_keys_ainsert _ _ _ h
  | queueBufferRelease m s b =>
      show KeysNodup (queue_buffer_release om m s b)
      unfold queue_buffer_release
      split <;> exact h
  | takeDeferredReleases => exact h
  | cleanupMonitor m => exact nodup_keys_filter _ _ h
  | cleanupSession s => exact nodup_keys_filter _ _ h

theorem runOps_keys_nodup (ops : List OwnershipOp) : KeysNodup (runOps ops) := by
  have general : ∀ (l : List OwnershipOp) (om : OwnershipManager),
      KeysNodup om → KeysNodup (l.foldl stepOp om) := by
    intro l
    induction l with
    | nil => intro om h; exact h
    | cons op rest ih => intro om h; exact ih _ (stepOp_keys_nodup om op h)
  exact general ops OwnershipManager.empty (by simp [OwnershipManager.empty, KeysNodup])

theorem countP_le_one_of_nodup_keys {κ β : Type} [DecidableEq κ] (l : List (κ × β))
    (hnd : (l.map Prod.fst).Nodup) (k : κ) (p : κ × β → Bool)
    (hp : ∀ e, p e = true → e.1 = k) : l.countP p ≤ 1 := by
  induction l with
  | nil => simp
  | cons e es ih =>
      simp only [List.map_cons, List.nodup_cons] at hnd
      rw [List.countP_cons]
      by_cases hpe : p e = true
      · have h0 : es.countP p = 0 := by
          rw [List.countP_eq_zero]
          intro x hx hpx
          refine absurd ?_ hnd.1
          have hxk : x.1 = k := hp x hpx
          have hek : e.1 = k := hp e hpe
          rw [hek, ← hxk]
          exact List.mem_map_of_mem Prod.fst hx
        simp [hpe, h0]
      · simp only [hpe, if_false, Nat.add_zero, if_neg]
        exact ih hnd.2

/-- C1 (amended): for every sequence of `OwnershipManager` operations
starting from the empty ledger there is at most one pending buffer per
(monitor, session) surface; the claimed `pending ≠ current` does not hold
in general — re-submitting the current buffer with an acquire fence makes
`pending = current` (see the counterexample). -/
theorem c1_at_most_one_pending (ops : List OwnershipOp) (m : MonitorId) (s : SessionId) :
    ((runOps ops).monitor_state.countP fun e =>
        decide (e.1 = (m, s)) && e.2.pending_buffer.isSome) ≤ 1 := by
  refine countP_le_one_of_nodup_keys _ (runOps_keys_nodup ops) (m, s) _ ?_
  intro e he
  simp only [Bool.and_eq_true, decide_eq_true_eq] at he
  exact he.1

/-! ## C2, C6: `apply_swap_request` semantics -/

theorem optFilterNe_eq_some (b : BufferSlot) (o : Option BufferSlot) (p : BufferSlot) :
    optFilterNe b o = some p ↔ o = some p ∧ p ≠ b := by
  cases o with
  | none => simp [optFilterNe]
  | some v => by_cases hv : v = b <;> simp [optFilterNe, hv] <;> aesop

/-- C2: `apply_swap_request(monitor, session, buffer, has_acquire_fence)`
marks the slot Shift-owned; returns a pre-existing pending buffer different
from `buffer` as `canceled_pending`; when `has_acquire_fence` is false the
surface becomes `current = buffer, pending = None` and
`previous_to_release` is exactly a previous current differing from
`buffer`; when `buffer` equals the current buffer the swap proceeds with
`previous_to_release = None`. -/
theorem c2_apply_swap_request (om : OwnershipManager) (m : MonitorId) (s : SessionId)
    (b : BufferSlot) (fence : Bool) :
    alookup (apply_swap_request om m s b fence).1.slot_ownership ⟨m, s, b⟩
        = some SlotOwner.ShiftOwned
    ∧ (∀ p, (apply_swap_request om m s b fence).2.canceled_pending = some p ↔
        (alookup om.monitor_state (m, s)).bind MonitorSurfaceState.pending_buffer = some p ∧ p ≠ b)
    ∧ (fence = false →
        alookup (apply_swap_request om m s b fence).1.monitor_state (m, s) =
          some { current_buffer := some b, pending_buffer := none }
        ∧ ∀ p, (apply_swap_request om m s b fence).2.previous_to_release = some p ↔
            ((alookup om.monitor_state (m, s)).getD {}).current_buffer = some p ∧ p ≠ b)
    ∧ (((alookup om.monitor_state (m, s)).getD {}).current_buffer = some b →
        (apply_swap_request om m s b fence).2.previous_to_release = none) := by
  refine ⟨?_, ?_, ?_, ?_⟩
  · simp [apply_swap_request, mark_slot_shift_owned, alookup_ainsert]
  · intro p
    simp only [apply_swap_request]
    exact optFilterNe_eq_some b _ p
  · intro hf
    subst hf
    constructor
    · simp [apply_swap_request, mark_slot_shift_owned, alookup_ainsert]
    · intro p
      simp only [apply_swap_request, mark_slot_shift_owned]
      exact optFilterNe_eq_some b _ p
  · intro hcur
    cases fence with
    | true => simp [apply_swap_request]
    | false =>
        simp only [apply_swap_request, mark_slot_shift_owned]
        simp [hcur, optFilterNe]

/-- C6: applying `apply_swap_request` with `has_acquire_fence = true` and
then `apply_acquire_fence_signaled` on the same slot yields the same final
ledger state and the same release outputs as a single `apply_swap_request`
with `has_acquire_fence = false`. -/
theorem c6_swap_then_fence_equals_direct (om : OwnershipManager) (m : MonitorId)
    (s : SessionId) (b : BufferSlot) :
    (apply_acquire_fence_signaled (apply_swap_request om m s b true).1 ⟨m, s, b⟩).1 =
      (apply_swap_request om m s b false).1
    ∧ (apply_acquire_fence_signaled (apply_swap_request om m s b true).1 ⟨m, s, b⟩).2 =
      (apply_swap_request om m s b false).2.previous_to_release
    ∧ (apply_swap_request om m s b true).2.canceled_pending =
      (apply_swap_request om m s b false).2.canceled_pending
    ∧ (apply_swap_request om m s b true).2.previous_to_release = none := by
  refine ⟨?_, ?_, rfl, rfl⟩ <;>
    simp [apply_swap_request, apply_acquire_fence_signaled, mark_slot_shift_owned,
      alookup_ainsert, ainsert_ainsert]

/-! ## C3, C5: server `BufferRequest` handling -/

theorem any_inflight_iff (st : ServerBufState) (s : SessionId) (m : MonitorId) :
    (st.pending_buffer_requests.any fun pending =>
      decide (pending.session_id = s) && decide (pending.monitor_id = m)) = true
      ↔ hasInflight st s m := by
  simp [hasInflight, List.any_eq_true]

/-- C3: a `buffer_request` from a non-awake session, for a slot that is not
client-owned, or with an in-flight request on the same (session, monitor)
is answered with the corresponding error (`session_sleeping`,
`ownership_violation`, `buffer_request_inflight`, checked in that order),
no `SwapBuffers` command is forwarded, and both `buffer_ownership` and
`pending_buffer_requests` are left unchanged. -/
theorem c3_buffer_request_errors (st : ServerBufState) (client_id : Nat)
    (session_id : SessionId) (monitor_id : MonitorId) (buffer : BufferIndex) (sendOk : Bool)
    (h : ¬ isAwake st session_id
        ∨ ownerOf st session_id monitor_id buffer ≠ .Client
        ∨ hasInflight st session_id monitor_id) :
    (handle_buffer_request st client_id session_id monitor_id buffer sendOk).1 ≠ .forwardedSwap
    ∧ (handle_buffer_request st client_id session_id monitor_id buffer sendOk).2.buffer_ownership
        = st.buffer_ownership
    ∧ (handle_buffer_request st client_id session_id monitor_id buffer
        sendOk).2.pending_buffer_requests = st.pending_buffer_requests
    ∧ (¬ isAwake st session_id →
        (handle_buffer_request st client_id session_id monitor_id buffer sendOk).1 =
          .sentError "session_sleeping")
    ∧ (isAwake st session_id → ownerOf st session_id monitor_id buffer ≠ .Client →
        (handle_buffer_request st client_id session_id monitor_id buffer sendOk).1 =
          .sentError "ownership_violation")
    ∧ (isAwake st session_id → ownerOf st session_id monitor_id buffer = .Client →
        hasInflight st session_id monitor_id →
        (handle_buffer_request st client_id session_id monitor_id buffer sendOk).1 =
          .sentError "buffer_request_inflight") := by
  by_cases ha : isAwake st session_id
  · by_cases ho : ownerOf st session_id monitor_id buffer = BufferOwner.Client
    · have hin : hasInflight st session_id monitor_id := by
        rcases h with h1 | h2 | h3
        · exact absurd ha h1
        · exact absurd ho h2
        · exact h3
      have hany : (st.pending_buffer_requests.any fun pending =>
          decide (pending.session_id = session_id)
            && decide (pending.monitor_id = monitor_id)) = true :=
        (any_inflight_iff st session_id monitor_id).mpr hin
      refine ⟨?_, ?_, ?_, ?_, ?_, ?_⟩ <;>
        simp [handle_buffer_request, ha, ho, hany]
    · refine ⟨?_, ?_, ?_, ?_, ?_, ?_⟩ <;>
        simp [handle_buffer_request, ha, ho]
  · refine ⟨?_, ?_, ?_, ?_, ?_, ?_⟩ <;>
      simp [handle_buffer_request, ha]

/-- C3 witness: a sleeping session (awake set empty) is rejected without a
forward. -/
theorem c3_witness :
    (¬ isAwake ⟨[], [], []⟩ 5
      ∨ ownerOf ⟨[], [], []⟩ 5 0 BufferIndex.Zero ≠ .Client
      ∨ hasInflight ⟨[], [], []⟩ 5 0)
    ∧ (handle_buffer_request ⟨[], [], []⟩ 1 5 0 BufferIndex.Zero true).1 ≠ .forwardedSwap :=
  ⟨Or.inl (by decide),
    (c3_buffer_request_errors ⟨[], [], []⟩ 1 5 0 BufferIndex.Zero true (Or.inl (by decide))).1⟩

/-- C5 counterexample: a valid `buffer_request` (session 7 awake, slot
client-owned by default, no in-flight request) forwards the swap command,
yet at that moment the slot's owner in `buffer_ownership` is still
`Client`, not `Shift` — the claim says the slot is marked server-owned at
forward time. -/
theorem c5_counterexample :
    (handle_buffer_request ⟨[7], [], []⟩ 1 7 3 BufferIndex.Zero true).1 = .forwardedSwap ∧
    ownerOf (handle_buffer_request ⟨[7], [], []⟩ 1 7 3 BufferIndex.Zero true).2 7 3
        BufferIndex.Zero ≠ .Shift := by
  decide

/-- C5 (amended): a validated `buffer_request` forwards the swap command and
records a `PendingBufferRequest`, leaving `buffer_ownership` unchanged; the
slot is marked Shift-owned only when the renderer's `BufferRequestAck` for a
matching pending request arrives (which also removes the pending entry). -/
theorem c5_mark_shift_on_ack (st : ServerBufState) (client_id : Nat) (session_id : SessionId)
    (monitor_id : MonitorId) (buffer : BufferIndex)
    (ha : isAwake st session_id)
    (ho : ownerOf st session_id monitor_id buffer = .Client)
    (hn : ¬ hasInflight st session_id monitor_id) :
    (handle_buffer_request st client_id session_id monitor_id buffer true).1 = .forwardedSwap
    ∧ (handle_buffer_request st client_id session_id monitor_id buffer true).2.buffer_ownership
        = st.buffer_ownership
    ∧ (handle_buffer_request st client_id session_id monitor_id buffer
        true).2.pending_buffer_requests
        = st.pending_buffer_requests ++ [⟨client_id, session_id, monitor_id, buffer⟩]
    ∧ ∀ st2 : ServerBufState,
        (st2.pending_buffer_requests.findIdx? fun pending =>
            decide (pending.session_id = session_id) && decide (pending.monitor_id = monitor_id)
              && decide (pending.buffer = buffer)).isSome →
        (handle_buffer_request_ack st2 session_id monitor_id buffer).1 = true
        ∧ alookup (handle_buffer_request_ack st2 session_id monitor_id buffer).2.buffer_ownership
            (session_id, monitor_id, buffer) = some .Shift := by
  have hany : (st.pending_buffer_requests.any fun pending =>
      decide (pending.session_id = session_id)
        && decide (pending.monitor_id = monitor_id)) = false := by
    rw [← Bool.not_eq_true]
    rw [any_inflight_iff]
    exact hn
  refine ⟨?_, ?_, ?_, ?_⟩
  · simp [handle_buffer_request, ha, ho, hany]
  · simp [handle_buffer_request, ha, ho, hany]
  · simp [handle_buffer_request, ha, ho, hany]
  · intro st2 hidx
    cases hfind : st2.pending_buffer_requests.findIdx? (fun pending =>
        decide (pending.session_id = session_id) && decide (pending.monitor_id = monitor_id)
          && decide (pending.buffer = buffer)) with
    | none => rw [hfind] at hidx; simp at hidx
    | some pos =>
        constructor
        · simp [handle_buffer_request_ack, hfind]
        · simp [handle_buffer_request_ack, hfind, alookup_ainsert]

/-- C5 witness: the amended theorem at a concrete awake session with an
empty ownership table and no in-flight requests. -/
theorem c5_witness :
    isAwake ⟨[7], [], []⟩ 7 ∧
    (handle_buffer_request ⟨[7], [], []⟩ 1 7 3 BufferIndex.Zero true).1 = .forwardedSwap :=
  ⟨by decide,
    (c5_mark_shift_on_ack ⟨[7], [], []⟩ 1 7 3 BufferIndex.Zero (by decide) (by decide)
        (by decide)).1⟩

/-! ## C8: cursor containment -/

/-- Membership in the closed rectangle of a placement, with the same extent
formulas the source computes (`right = x + width.max(0)`, etc.). -/
def inClosedRect (m : MonitorPlacement) (x y : ℚ) : Prop :=
  (m.x : ℚ) ≤ x ∧ x ≤ ((m.x + max m.width 0 : Int) : ℚ)
  ∧ (m.y : ℚ) ≤ y ∧ y ≤ ((m.y + max m.height 0 : Int) : ℚ)

/-- The union of the monitor rectangles. -/
def InLayout (monitors : List MonitorPlacement) (x y : ℚ) : Prop :=
  ∃ m ∈ monitors, inClosedRect m x y

theorem rect_contains_inClosed (m : MonitorPlacement) (x y : ℚ)
    (h : rect_contains m x y = true) : inClosedRect m x y := by
  simp only [rect_contains, Bool.and_eq_true, decide_eq_true_eq] at h
  obtain ⟨⟨⟨h1, h2⟩, h3⟩, h4⟩ := h
  exact ⟨h1, le_of_lt h2, h3, le_of_lt h4⟩

theorem fclamp_mem (x lo hi : ℚ) (h : lo ≤ hi) :
    lo ≤ fclamp x lo hi ∧ fclamp x lo hi ≤ hi := by
  unfold fclamp
  by_cases h1 : x < lo
  · rw [if_pos h1]
    exact ⟨le_refl _, h⟩
  · rw [if_neg h1]
    by_cases h2 : hi < x
    · rw [if_pos h2]
      exact ⟨h, le_refl _⟩
    · rw [if_neg h2]
      exact ⟨le_of_not_lt h1, le_of_not_lt h2⟩

theorem rectRight_ge (m : MonitorPlacement) : (m.x : ℚ) ≤ ((m.x + max m.width 0 : Int) : ℚ) := by
  have h : m.x ≤ m.x + max m.width 0 := le_add_of_nonneg_right (le_max_right m.width 0)
  exact_mod_cast h

theorem rectBottom_ge (m : MonitorPlacement) :
    (m.y : ℚ) ≤ ((m.y + max m.height 0 : Int) : ℚ) := by
  have h : m.y ≤ m.y + max m.height 0 := le_add_of_nonneg_right (le_max_right m.height 0)
  exact_mod_cast h

theorem candidate_in_rect (m : MonitorPlacement) (x y : ℚ) :
    inClosedRect m
      (fclamp x (m.x : ℚ) (max ((m.x + max m.width 0 : Int) : ℚ) (m.x : ℚ)))
      (fclamp y (m.y : ℚ) (max ((m.y + max m.height 0 : Int) : ℚ) (m.y : ℚ))) := by
  have hx := rectRight_ge m
  have hy := rectBottom_ge m
  rw [max_eq_left hx, max_eq_left hy]
  obtain ⟨h1, h2⟩ := fclamp_mem x _ _ hx
  obtain ⟨h3, h4⟩ := fclamp_mem y _ _ hy
  exact ⟨h1, h2, h3, h4⟩

theorem clampCandidates_sound (x y : ℚ) (l0 : List MonitorPlacement) :
    ∀ (ms : List MonitorPlacement) (best : Option (ℚ × ℚ × ℚ)),
      (∀ m ∈ ms, m ∈ l0) →
      (∀ px py d, best = some (px, py, d) → InLayout l0 px py) →
      ∀ px py d, clampCandidates x y ms best = some (px, py, d) → InLayout l0 px py := by
  intro ms
  induction ms with
  | nil =>
      intro best hsub hbest px py d hc
      exact hbest px py d hc
  | cons m ms ih =>
      intro best hsub hbest px py d hc
      simp only [clampCandidates] at hc
      refine ih _ (fun m' hm' => hsub m' (List.mem_cons_of_mem _ hm')) ?_ px py d hc
      intro px' py' d' hb1
      have hmem : m ∈ l0 := hsub m (List.mem_cons_self m ms)
      cases best with
      | none =>
          dsimp only at hb1
          simp only [Option.some.injEq, Prod.mk.injEq] at hb1
          obtain ⟨hpx, hpy, -⟩ := hb1
          rw [← hpx, ← hpy]
          exact ⟨m, hmem, candidate_in_rect m x y⟩
      | some t =>
          obtain ⟨bx, bvy, bd⟩ := t
          dsimp only at hb1
          split at hb1
          · exact hbest px' py' d' hb1
          · simp only [Option.some.injEq, Prod.mk.injEq] at hb1
            obtain ⟨hpx, hpy, -⟩ := hb1
            rw [← hpx, ← hpy]
            exact ⟨m, hmem, candidate_in_rect m x y⟩

theorem clampCandidates_isSome (x y : ℚ) :
    ∀ (ms : List MonitorPlacement) (best : Option (ℚ × ℚ × ℚ)),
      best.isSome = true ∨ ms ≠ [] → (clampCandidates x y ms best).isSome = true := by
  intro ms
  induction ms with
  | nil =>
      intro best h
      rcases h with h | h
      · simpa [clampCandidates] using h
      · exact absurd rfl h
  | cons m ms ih =>
      intro best h
      simp only [clampCandidates]
      apply ih
      left
      rcases best with - | ⟨bx, bvy, bd⟩
      · simp
      · dsimp only
        split <;> simp

/-- The source's `best.expect(..)` succeeds and its point is in the layout. -/
theorem clamp_point_to_layout_inLayout (monitors : List MonitorPlacement)
    (hne : monitors ≠ []) (x y : ℚ) :
    InLayout monitors (clamp_point_to_layout monitors x y).1
      (clamp_point_to_layout monitors x y).2 := by
  unfold clamp_point_to_layout
  rw [if_neg hne]
  by_cases hin : monitors.any (fun m => rect_contains m x y) = true
  · rw [if_pos hin]
    obtain ⟨m, hm, hc⟩ := List.any_eq_true.mp hin
    exact ⟨m, hm, rect_contains_inClosed m x y hc⟩
  · rw [if_neg hin]
    cases hc : clampCandidates x y monitors none with
    | none =>
        have hs := clampCandidates_isSome x y monitors none (Or.inr hne)
        rw [hc] at hs
        simp at hs
    | some t =>
        obtain ⟨px, py, d⟩ := t
        dsimp only
        exact clampCandidates_sound x y monitors monitors none (fun _ h => h)
          (by simp) px py d hc

theorem moveSteps_inLayout (monitors : List MonitorPlacement) (hne : monitors ≠ [])
    (stepX stepY : ℚ) :
    ∀ (n : Nat) (p : ℚ × ℚ), InLayout monitors p.1 p.2 →
      InLayout monitors (moveSteps monitors stepX stepY n p).1
        (moveSteps monitors stepX stepY n p).2 := by
  intro n
  induction n with
  | zero => intro p hp; exact hp
  | succ k ih =>
      intro p hp
      obtain ⟨x, y⟩ := p
      simp only [moveSteps]
      by_cases hin : monitors.any (fun m => rect_contains m (x + stepX) (y + stepY)) = true
      · rw [if_pos hin]
        refine ih _ ?_
        obtain ⟨m, hm, hc⟩ := List.any_eq_true.mp hin
        exact ⟨m, hm, rect_contains_inClosed _ _ _ hc⟩
      · rw [if_neg hin]
        by_cases hbr : (decide (|(clamp_point_to_layout monitors (x + stepX) (y + stepY)).1 - x|
              < eps)
            && decide (|(clamp_point_to_layout monitors (x + stepX) (y + stepY)).2 - y|
              < eps)) = true
        · rw [if_pos hbr]
          exact hp
        · rw [if_neg hbr]
          exact ih _ (clamp_point_to_layout_inLayout monitors hne _ _)

/-- C8: for every non-empty placement list, the point returned by
`move_cursor_no_tunnel` lies in the union of the monitor rectangles, and
so does the point returned by `clamp_point_to_layout` for any input
point. -/
theorem c8_cursor_containment (monitors : List MonitorPlacement) (hne : monitors ≠ []) :
    (∀ x y : ℚ, InLayout monitors (clamp_point_to_layout monitors x y).1
        (clamp_point_to_layout monitors x y).2)
    ∧ ∀ sx sy dx dy : ℚ, InLayout monitors (move_cursor_no_tunnel monitors sx sy dx dy).1
        (move_cursor_no_tunnel monitors sx sy dx dy).2 := by
  refine ⟨fun x y => clamp_point_to_layout_inLayout monitors hne x y, ?_⟩
  intro sx sy dx dy
  simp only [move_cursor_no_tunnel]
  rw [if_neg hne]
  exact moveSteps_inLayout monitors hne _ _ _ _
    (clamp_point_to_layout_inLayout monitors hne sx sy)

/-- C8 witness: containment at a concrete one-monitor layout and a point
outside it. -/
theorem c8_witness :
    (([⟨"a", 0, 0, 100, 100⟩] : List MonitorPlacement) ≠ [])
    ∧ InLayout [⟨"a", 0, 0, 100, 100⟩]
        (clamp_point_to_layout [⟨"a", 0, 0, 100, 100⟩] 250 50).1
        (clamp_point_to_layout [⟨"a", 0, 0, 100, 100⟩] 250 50).2 :=
  ⟨by decide, (c8_cursor_containment [⟨"a", 0, 0, 100, 100⟩] (by decide)).1 250 50⟩

/-! ## C7: the edge-contiguity validator against the spec's predicate -/

/-- All monitors have positive dimensions (the amendment's proviso: with a
zero-sized extent the source's interval tests diverge from the spec's
"positive-length overlap"). -/
def PosDims (l : List MonitorPlacement) : Prop := ∀ m ∈ l, 0 < m.width ∧ 0 < m.height

instance (l : List MonitorPlacement) : Decidable (PosDims l) :=
  inferInstanceAs (Decidable (∀ m ∈ l, 0 < m.width ∧ 0 < m.height))

theorem mp_mem (l : List MonitorPlacement) (i : Nat) (h : i < l.length) : mp l i ∈ l := by
  unfold mp
  rw [List.getD_eq_getElem l dummyPlacement h]
  exact List.getElem_mem h

theorem monitors_touch_iff (a b : MonitorPlacement) (ha : 0 < a.width ∧ 0 < a.height)
    (hb : 0 < b.width ∧ 0 < b.height) :
    monitors_touch a b = true ↔ TouchesSpec a b := by
  obtain ⟨haw, hah⟩ := ha
  obtain ⟨hbw, hbh⟩ := hb
  simp only [monitors_touch, TouchesSpec, PosOverlap, sLeft, sRight, sTop, sBottom,
    Bool.or_eq_true, Bool.and_eq_true, decide_eq_true_eq,
    max_eq_left haw.le, max_eq_left hah.le, max_eq_left hbw.le, max_eq_left hbh.le]
  omega

theorem monitors_overlap_iff (a b : MonitorPlacement) (ha : 0 < a.width ∧ 0 < a.height)
    (hb : 0 < b.width ∧ 0 < b.height) :
    monitors_overlap_area a b = true ↔ OverlapsPosArea a b := by
  obtain ⟨haw, hah⟩ := ha
  obtain ⟨hbw, hbh⟩ := hb
  simp only [monitors_overlap_area, OverlapsPosArea, PosOverlap, sLeft, sRight, sTop, sBottom,
    Bool.and_eq_true, decide_eq_true_eq,
    max_eq_left haw.le, max_eq_left hah.le, max_eq_left hbw.le, max_eq_left hbh.le]
  omega

theorem OverlapsPosArea_symm (a b : MonitorPlacement) (h : OverlapsPosArea a b) :
    OverlapsPosArea b a := by
  simp only [OverlapsPosArea, PosOverlap, sLeft, sRight, sTop, sBottom] at h ⊢
  omega

theorem TouchesSpec_symm (a b : MonitorPlacement) (h : TouchesSpec a b) : TouchesSpec b a := by
  simp only [TouchesSpec, PosOverlap, sLeft, sRight, sTop, sBottom] at h ⊢
  omega

theorem touchRel_symm (l : List MonitorPlacement) : Symmetric (touchRel l) := by
  rintro i j ⟨hi, hj, hne, ht⟩
  exact ⟨hj, hi, hne.symm, TouchesSpec_symm _ _ ht⟩

theorem hasOverlapPair_false_iff (l : List MonitorPlacement) (hpos : PosDims l) :
    hasOverlapPair l = false ↔
      ∀ i j, i < l.length → j < l.length → i ≠ j → ¬ OverlapsPosArea (mp l i) (mp l j) := by
  have hiff : ∀ i j, i < l.length → j < l.length →
      (monitors_overlap_area (mp l i) (mp l j) = true ↔ OverlapsPosArea (mp l i) (mp l j)) :=
    fun i j hi hj => monitors_overlap_iff _ _ (hpos _ (mp_mem l i hi)) (hpos _ (mp_mem l j hj))
  rw [← Bool.not_eq_true]
  simp only [hasOverlapPair, List.any_eq_true, List.mem_range, Bool.and_eq_true,
    decide_eq_true_eq, not_exists]
  constructor
  · intro h i j hi hj hne hov
    rcases Nat.lt_or_ge i j with hij | hij
    · exact h i ⟨hi, j, hj, hij, (hiff i j hi hj).mpr hov⟩
    · have hji : j < i := lt_of_le_of_ne hij (Ne.symm hne)
      exact h j ⟨hj, i, hi, hji, (hiff j i hj hi).mpr (OverlapsPosArea_symm _ _ hov)⟩
  · rintro h i ⟨hi, j, hj, hij, hov⟩
    exact h i j hi hj (Nat.ne_of_lt hij) ((hiff i j hi hj).mp hov)

theorem mem_adjList (l : List MonitorPlacement) (i j : Nat) :
    j ∈ adjList l i ↔ j < l.length ∧ j ≠ i ∧ monitors_touch (mp l i) (mp l j) = true := by
  simp [adjList, List.mem_filter, List.mem_range, and_assoc]

theorem degree_check_iff (l : List MonitorPlacement) (hpos : PosDims l) :
    ((List.range l.length).any fun i => (adjList l i).isEmpty) = false ↔
      ∀ i, i < l.length → ∃ j, j < l.length ∧ j ≠ i ∧ TouchesSpec (mp l i) (mp l j) := by
  rw [← Bool.not_eq_true]
  simp only [List.any_eq_true, List.mem_range, not_exists]
  constructor
  · intro h i hi
    have hne : adjList l i ≠ [] := by
      intro hnil
      exact h i ⟨hi, by simp [hnil]⟩
    obtain ⟨j, hj⟩ := List.exists_mem_of_ne_nil _ hne
    rw [mem_adjList] at hj
    exact ⟨j, hj.1, hj.2.1,
      (monitors_touch_iff _ _ (hpos _ (mp_mem l i hi)) (hpos _ (mp_mem l j hj.1))).mp hj.2.2⟩
  · rintro h i ⟨hi, hempty⟩
    obtain ⟨j, hj1, hj2, hj3⟩ := h i hi
    have hjmem : j ∈ adjList l i := by
      rw [mem_adjList]
      exact ⟨hj1, hj2,
        (monitors_touch_iff _ _ (hpos _ (mp_mem l i hi)) (hpos _ (mp_mem l j hj1))).mpr hj3⟩
    rw [List.isEmpty_iff] at hempty
    rw [hempty] at hjmem
    cases hjmem

/-! ### DFS correctness -/

/-- The indices of `List.range n` not yet marked seen. -/
def unseenCount (n : Nat) (seen : Nat → Bool) : Nat :=
  ((List.range n).filter fun k => ! seen k).length

theorem pushUnseen_seen (js : List Nat) : ∀ (seen : Nat → Bool) (stack : List Nat) (k : Nat),
    (pushUnseen seen stack js).1 k = true ↔ seen k = true ∨ k ∈ js := by
  induction js with
  | nil =>
      intro seen stack k
      simp [pushUnseen]
  | cons j js ih =>
      intro seen stack k
      by_cases hj : seen j = true
      · rw [pushUnseen, if_pos hj, ih]
        constructor
        · rintro (h | h)
          · exact Or.inl h
          · exact Or.inr (List.mem_cons_of_mem _ h)
        · rintro (h | h)
          · exact Or.inl h
          · rcases List.mem_cons.mp h with rfl | h2
            · exact Or.inl hj
            · exact Or.inr h2
      · rw [pushUnseen, if_neg hj, ih]
        by_cases hk : k = j
        · subst hk
          simp
        · rw [if_neg hk]
          constructor
          · rintro (h | h)
            · exact Or.inl h
            · exact Or.inr (List.mem_cons_of_mem _ h)
          · rintro (h | h)
            · exact Or.inl h
            · rcases List.mem_cons.mp h with h1 | h2
              · exact absurd h1 hk
              · exact Or.inr h2

theorem pushUnseen_stack (js : List Nat) : ∀ (seen : Nat → Bool) (stack : List Nat) (k : Nat),
    k ∈ (pushUnseen seen stack js).2 ↔ k ∈ stack ∨ (k ∈ js ∧ seen k = false) := by
  induction js with
  | nil =>
      intro seen stack k
      simp [pushUnseen]
  | cons j js ih =>
      intro seen stack k
      by_cases hj : seen j = true
      · rw [pushUnseen, if_pos hj, ih]
        by_cases hk : k = j
        · subst hk
          simp [hj]
        · constructor
          · rintro (h | ⟨h1, h2⟩)
            · exact Or.inl h
            · exact Or.inr ⟨List.mem_cons_of_mem _ h1, h2⟩
          · rintro (h | ⟨h1, h2⟩)
            · exact Or.inl h
            · rcases List.mem_cons.mp h1 with h3 | h3
              · exact absurd h3 hk
              · exact Or.inr ⟨h3, h2⟩
      · rw [pushUnseen, if_neg hj, ih]
        have hjf : seen j = false := by
          cases hcs : seen j
          · rfl
          · exact absurd hcs hj
        by_cases hk : k = j
        · subst hk
          simp [hjf]
        · rw [if_neg hk]
          constructor
          · rintro (h | ⟨h1, h2⟩)
            · rcases List.mem_cons.mp h with h3 | h3
              · exact absurd h3 hk
              · exact Or.inl h3
            · exact Or.inr ⟨List.mem_cons_of_mem _ h1, h2⟩
          · rintro (h | ⟨h1, h2⟩)
            · exact Or.inl (List.mem_cons_of_mem _ h)
            · rcases List.mem_cons.mp h1 with h3 | h3
              · exact absurd h3 hk
              · exact Or.inr ⟨h3, h2⟩

theorem filter_update_length (j : Nat) (seen : Nat → Bool) (hsj : seen j = false) :
    ∀ (L : List Nat), L.Nodup → j ∈ L →
      (L.filter fun k => ! (if k = j then true else seen k)).length + 1 =
        (L.filter fun k => ! seen k).length := by
  intro L
  induction L with
  | nil => intro _ hjL; cases hjL
  | cons a L ih =>
      intro hnd hjL
      simp only [List.nodup_cons] at hnd
      rcases List.mem_cons.mp hjL with rfl | hjL2
      · have hcongr : (L.filter fun k => ! (if k = j then true else seen k)) =
            L.filter fun k => ! seen k :=
          List.filter_congr fun x hx => by
            rw [if_neg (fun hxj : x = j => hnd.1 (hxj ▸ hx))]
        rw [List.filter_cons, List.filter_cons, hcongr]
        simp [hsj]
      · have haj : a ≠ j := fun h => hnd.1 (h ▸ hjL2)
        rw [List.filter_cons, List.filter_cons]
        have hcond : (! (if a = j then true else seen a)) = (! seen a) := by rw [if_neg haj]
        rw [hcond]
        cases hb : (! seen a)
        · simp only [Bool.false_eq_true, if_false]
          exact ih hnd.2 hjL2
        · simp only [eq_self_iff_true, if_true, List.length_cons]
          have := ih hnd.2 hjL2
          omega

theorem unseenCount_update (n : Nat) (seen : Nat → Bool) (j : Nat) (hj : j < n)
    (hsj : seen j = false) :
    unseenCount n (fun k => if k = j then true else seen k) + 1 = unseenCount n seen :=
  filter_update_length j seen hsj (List.range n) (List.nodup_range n)
    (List.mem_range.mpr hj)

theorem pushUnseen_mu (n : Nat) (js : List Nat) (hjs : ∀ j ∈ js, j < n) :
    ∀ (seen : Nat → Bool) (stack : List Nat),
      (pushUnseen seen stack js).2.length + unseenCount n (pushUnseen seen stack js).1 ≤
        stack.length + unseenCount n seen := by
  induction js with
  | nil =>
      intro seen stack
      simp [pushUnseen]
  | cons j js ih =>
      intro seen stack
      have hjn : j < n := hjs j (List.mem_cons_self j js)
      have hjs2 : ∀ x ∈ js, x < n := fun x hx => hjs x (List.mem_cons_of_mem _ hx)
      by_cases hj : seen j = true
      · rw [pushUnseen, if_pos hj]
        exact ih hjs2 seen stack
      · rw [pushUnseen, if_neg hj]
        have hjf : seen j = false := by
          cases hcs : seen j
          · rfl
          · exact absurd hcs hj
        have hupd := unseenCount_update n seen j hjn hjf
        have hrec := ih hjs2 (fun k => if k = j then true else seen k) (j :: stack)
        simp only [List.length_cons] at hrec ⊢
        omega

theorem dfsGo_spec (adj : Nat → List Nat) (n : Nat)
    (hadj : ∀ i j, j ∈ adj i → j < n) :
    ∀ (fuel : Nat) (stack : List Nat) (seen : Nat → Bool),
      (∀ k ∈ stack, seen k = true) →
      (∀ k, seen k = true → k ∉ stack → ∀ j ∈ adj k, seen j = true) →
      (stack.length + unseenCount n seen ≤ fuel) →
      (∀ k, seen k = true → Relation.ReflTransGen (fun a b => b ∈ adj a) 0 k) →
      (∀ k, seen k = true → dfsGo adj fuel stack seen k = true)
      ∧ (∀ k j, dfsGo adj fuel stack seen k = true → j ∈ adj k →
          dfsGo adj fuel stack seen j = true)
      ∧ (∀ k, dfsGo adj fuel stack seen k = true →
          Relation.ReflTransGen (fun a b => b ∈ adj a) 0 k) := by
  intro fuel
  induction fuel with
  | zero =>
      intro stack seen hstack hclosed hfuel hreach
      have hse : stack = [] := by
        have : stack.length = 0 := by omega
        exact List.length_eq_zero.mp this
      subst hse
      rw [dfsGo]
      exact ⟨fun k h => h, fun k j hk hj => hclosed k hk (List.not_mem_nil k) j hj, hreach⟩
  | succ f ih =>
      intro stack seen hstack hclosed hfuel hreach
      cases stack with
      | nil =>
          rw [dfsGo]
          exact ⟨fun k h => h, fun k j hk hj => hclosed k hk (List.not_mem_nil k) j hj, hreach⟩
      | cons i rest =>
          rw [dfsGo]
          have hseen := pushUnseen_seen (adj i) seen rest
          have hstk := pushUnseen_stack (adj i) seen rest
          have h1 : ∀ k ∈ (pushUnseen seen rest (adj i)).2,
              (pushUnseen seen rest (adj i)).1 k = true := by
            intro k hk
            rw [hstk k] at hk
            rw [hseen k]
            rcases hk with hk | ⟨hk, -⟩
            · exact Or.inl (hstack k (List.mem_cons_of_mem _ hk))
            · exact Or.inr hk
          have h2 : ∀ k, (pushUnseen seen rest (adj i)).1 k = true →
              k ∉ (pushUnseen seen rest (adj i)).2 →
              ∀ j ∈ adj k, (pushUnseen seen rest (adj i)).1 j = true := by
            intro k hk hknot j hj
            rw [hseen k] at hk
            rw [hseen j]
            by_cases hki : k = i
            · subst hki
              exact Or.inr hj
            · have hkseen : seen k = true := by
                rcases hk with hk | hk
                · exact hk
                · by_cases hks : seen k = true
                  · exact hks
                  · have hkf : seen k = false := by
                      cases hcs : seen k
                      · rfl
                      · exact absurd hcs hks
                    exact absurd ((hstk k).mpr (Or.inr ⟨hk, hkf⟩)) hknot
              have hkrest : k ∉ rest := fun hr => hknot ((hstk k).mpr (Or.inl hr))
              have hkstack : k ∉ i :: rest := by
                intro hmem
                rcases List.mem_cons.mp hmem with h1 | h1
                · exact hki h1
                · exact hkrest h1
              exact Or.inl (hclosed k hkseen hkstack j hj)
          have h3 : (pushUnseen seen rest (adj i)).2.length +
              unseenCount n (pushUnseen seen rest (adj i)).1 ≤ f := by
            have hmu := pushUnseen_mu n (adj i) (fun j hj => hadj i j hj) seen rest
            simp only [List.length_cons] at hfuel
            omega
          have h4 : ∀ k, (pushUnseen seen rest (adj i)).1 k = true →
              Relation.ReflTransGen (fun a b => b ∈ adj a) 0 k := by
            intro k hk
            rw [hseen k] at hk
            rcases hk with hk | hk
            · exact hreach k hk
            · exact (hreach i (hstack i (List.mem_cons_self i rest))).tail hk
          obtain ⟨mono, closed, sound⟩ :=
            ih (pushUnseen seen rest (adj i)).2 (pushUnseen seen rest (adj i)).1 h1 h2 h3 h4
          exact ⟨fun k hk => mono k ((hseen k).mpr (Or.inl hk)), closed, sound⟩

theorem dfsSeen_iff (l : List MonitorPlacement) (hn : 1 < l.length) (k : Nat) :
    dfsSeen l k = true ↔ Relation.ReflTransGen (fun a b => b ∈ adjList l a) 0 k := by
  have hadj : ∀ i j, j ∈ adjList l i → j < l.length :=
    fun i j hj => ((mem_adjList l i j).mp hj).1
  have hseen0 : (fun k => decide (k = 0)) =
      (fun k => if k = 0 then true else (fun _ : Nat => false) k) := by
    funext x
    by_cases hx : x = 0 <;> simp [hx]
  have hcount : unseenCount l.length (fun k => decide (k = 0)) + 1 = l.length := by
    rw [hseen0, unseenCount_update l.length (fun _ => false) 0 (by omega) rfl]
    unfold unseenCount
    simp
  obtain ⟨mono, closed, sound⟩ := dfsGo_spec (adjList l) l.length hadj l.length [0]
      (fun k => decide (k = 0))
      (by
        intro k hk
        rcases List.mem_cons.mp hk with rfl | h
        · simp
        · cases h)
      (by
        intro k hk hknot
        rw [decide_eq_true_eq] at hk
        subst hk
        exact absurd (List.mem_cons_self 0 []) hknot)
      (by
        simp only [List.length_cons, List.length_nil]
        omega)
      (by
        intro k hk
        rw [decide_eq_true_eq] at hk
        subst hk
        exact Relation.ReflTransGen.refl)
  constructor
  · exact sound k
  · intro hr
    induction hr with
    | refl => exact mono 0 (by simp)
    | @tail b c hab hbc ih => exact closed b c ih hbc

theorem rtg_adj_lt (l : List MonitorPlacement) (hn : 1 < l.length) (k : Nat)
    (h : Relation.ReflTransGen (fun a b => b ∈ adjList l a) 0 k) : k < l.length := by
  induction h with
  | refl => omega
  | @tail b c hab hbc ih => exact ((mem_adjList l b c).mp hbc).1

theorem rtg_adj_iff_touch (l : List MonitorPlacement) (hpos : PosDims l)
    (hn : 1 < l.length) (k : Nat) :
    Relation.ReflTransGen (fun a b => b ∈ adjList l a) 0 k ↔
      Relation.ReflTransGen (touchRel l) 0 k := by
  constructor
  · intro h
    induction h with
    | refl => exact Relation.ReflTransGen.refl
    | @tail b c hab hbc ih =>
        have hb : b < l.length := rtg_adj_lt l hn b hab
        obtain ⟨hc, hcb, htouch⟩ := (mem_adjList l b c).mp hbc
        exact ih.tail ⟨hb, hc, Ne.symm hcb,
          (monitors_touch_iff _ _ (hpos _ (mp_mem l b hb)) (hpos _ (mp_mem l c hc))).mp htouch⟩
  · intro h
    induction h with
    | refl => exact Relation.ReflTransGen.refl
    | @tail b c hab hbc ih =>
        obtain ⟨hb, hc, hne, ht⟩ := hbc
        refine ih.tail ?_
        rw [mem_adjList]
        exact ⟨hc, Ne.symm hne,
          (monitors_touch_iff _ _ (hpos _ (mp_mem l b hb)) (hpos _ (mp_mem l c hc))).mpr ht⟩

theorem dfsAll_iff (l : List MonitorPlacement) (hpos : PosDims l) (hn : 1 < l.length) :
    ((List.range l.length).all fun i => dfsSeen l i) = true ↔
      ∀ i j, i < l.length → j < l.length → Relation.ReflTransGen (touchRel l) i j := by
  rw [List.all_eq_true]
  constructor
  · intro h i j hi hj
    have h0i := (rtg_adj_iff_touch l hpos hn i).mp
      ((dfsSeen_iff l hn i).mp (h i (List.mem_range.mpr hi)))
    have h0j := (rtg_adj_iff_touch l hpos hn j).mp
      ((dfsSeen_iff l hn j).mp (h j (List.mem_range.mpr hj)))
    exact Relation.ReflTransGen.trans
      (Relation.ReflTransGen.symmetric (touchRel_symm l) h0i) h0j
  · intro h i hi
    have hi2 := List.mem_range.mp hi
    exact (dfsSeen_iff l hn i).mpr
      ((rtg_adj_iff_touch l hpos hn i).mpr (h 0 i (by omega) hi2))

theorem validator_eq (l : List MonitorPlacement) (hlen : ¬ l.length ≤ 1) :
    is_valid_edge_contiguous_layout l = true ↔
      hasOverlapPair l = false ∧
      ((List.range l.length).any fun i => (adjList l i).isEmpty) = false ∧
      ((List.range l.length).all fun i => dfsSeen l i) = true := by
  rw [is_valid_edge_contiguous_layout, if_neg hlen]
  by_cases h1 : hasOverlapPair l = true
  · rw [if_pos h1]
    simp [h1]
  · have h1f : hasOverlapPair l = false := by
      cases hc : hasOverlapPair l
      · rfl
      · exact absurd hc h1
    rw [if_neg h1]
    by_cases h2 : ((List.range l.length).any fun i => (adjList l i).isEmpty) = true
    · rw [if_pos h2]
      simp [h2, h1f]
    · have h2f : ((List.range l.length).any fun i => (adjList l i).isEmpty) = false := by
        cases hc : ((List.range l.length).any fun i => (adjList l i).isEmpty)
        · rfl
        · exact absurd hc h2
      rw [if_neg h2]
      simp [h1f, h2f]

/-- C7 (amended): for every placement list whose monitors all have positive
width and height, `is_valid_edge_contiguous_layout` returns true iff
`|P| ≤ 1` or (no pair overlaps with positive area, every rectangle
edge-touches at least one other, and the touch graph is connected); the
three-monitor island input yields false. -/
theorem c7_layout_validator_spec :
    (∀ l : List MonitorPlacement, PosDims l →
      (is_valid_edge_contiguous_layout l = true ↔ specValidLayout l))
    ∧ is_valid_edge_contiguous_layout
        [⟨"a", 0, 0, 100, 100⟩, ⟨"b", 100, 0, 100, 100⟩, ⟨"c", 500, 0, 100, 100⟩] = false := by
  constructor
  · intro l hpos
    by_cases hlen : l.length ≤ 1
    · rw [is_valid_edge_contiguous_layout, if_pos hlen]
      simp [specValidLayout, hlen]
    · have hn : 1 < l.length := by omega
      rw [validator_eq l hlen, hasOverlapPair_false_iff l hpos, degree_check_iff l hpos,
        dfsAll_iff l hpos hn]
      unfold specValidLayout
      constructor
      · rintro ⟨hA, hB, hC⟩
        exact Or.inr ⟨hA, hB, hC⟩
      · rintro (h | ⟨hA, hB, hC⟩)
        · exact absurd h hlen
        · exact ⟨hA, hB, hC⟩
  · decide

/-- C7 counterexample: the claimed iff fails for degenerate extents.  With a
zero-height monitor `a = (0,0,100×0)` and `b = (100,-50,100×100)` the
source's touch test accepts the pair (its interval test
`ay1 < by2 ∧ by1 < ay2` does not require a positive-length overlap for a
degenerate interval), so the validator returns true, yet their shared edge
segment has zero length, so the spec-side predicate is false. -/
theorem c7_counterexample :
    is_valid_edge_contiguous_layout
        [⟨"a", 0, 0, 100, 0⟩, ⟨"b", 100, -50, 100, 100⟩] = true
    ∧ ¬ specValidLayout [⟨"a", 0, 0, 100, 0⟩, ⟨"b", 100, -50, 100, 100⟩] := by
  constructor
  · decide
  · intro h
    rcases h with h | ⟨-, hB, -⟩
    · simp at h
    · obtain ⟨j, hj1, hj2, hj3⟩ := hB 0 (by simp)
      simp only [List.length_cons, List.length_nil] at hj1
      have hj : j = 1 := by omega
      subst hj
      exact absurd hj3 (by decide)

/-- C7 witness: the amended theorem applied to the island example, whose
monitors all have positive dimensions. -/
theorem c7_witness :
    PosDims [⟨"a", 0, 0, 100, 100⟩, ⟨"b", 100, 0, 100, 100⟩, ⟨"c", 500, 0, 100, 100⟩]
    ∧ (is_valid_edge_contiguous_layout
        [⟨"a", 0, 0, 100, 100⟩, ⟨"b", 100, 0, 100, 100⟩, ⟨"c", 500, 0, 100, 100⟩] = true
      ↔ specValidLayout
        [⟨"a", 0, 0, 100, 100⟩, ⟨"b", 100, 0, 100, 100⟩, ⟨"c", 500, 0, 100, 100⟩]) :=
  ⟨by decide, c7_layout_validator_spec.1 _ (by decide)⟩

end Shift
